import Mathlib

/-!
Shallow embedding of `server_standalone.py` (OpenMemory FastMCP server).

The four MCP tool handlers (`add_memories`, `search_memory`, `list_memories`,
`delete_all_memories`) are embedded as pure functions over an explicit
relational-ledger state `Db`.  The external collaborators (the mem0 memory
engine, the Qdrant vector store, the permission predicate from
`memory_utils`) are out of scope per the spec and are passed in as oracles.
UUIDs are modelled as `Nat`, timestamps as `Nat`, similarity scores as `Int`.
-/

namespace OpenMemory

/-- Lifecycle state of a ledger Memory row (`MemoryState` in `models`). -/
inductive MemoryState where
  | active
  | deleted
deriving DecidableEq, Repr

/-- A `User` row of the relational ledger: primary key and external identifier. -/
structure UserRow where
  id : Nat
  user_id : String
deriving DecidableEq, Repr

/-- An `App` row of the relational ledger. -/
structure AppRow where
  id : Nat
  owner_id : Nat
  name : String
  is_active : Bool
deriving DecidableEq, Repr

/-- A `Memory` row of the relational ledger. -/
structure MemoryRow where
  id : Nat
  user_id : Nat
  app_id : Nat
  content : String
  state : MemoryState
  deleted_at : Option Nat
deriving DecidableEq, Repr

/-- A `MemoryStatusHistory` row. -/
structure HistoryRow where
  memory_id : Nat
  changed_by : Nat
  old_state : Option MemoryState
  new_state : MemoryState
deriving DecidableEq, Repr

/-- The free-form `metadata_` dict written on access-log rows; the handlers
only ever populate these four keys. -/
structure LogMeta where
  query : Option String
  score : Option Int
  hash : Option String
  operation : Option String
deriving DecidableEq, Repr

/-- A `MemoryAccessLog` row. -/
structure AccessLogRow where
  memory_id : Nat
  app_id : Nat
  access_type : String
  metadata_ : LogMeta
deriving DecidableEq, Repr

/-- The relational ledger state seen through one database session. -/
structure Db where
  users : List UserRow
  apps : List AppRow
  memories : List MemoryRow
  history : List HistoryRow
  accessLogs : List AccessLogRow
deriving DecidableEq, Repr

/-- One element of `response['results']` returned by `memory_client.add`:
an id, an event kind string (`"ADD"`, `"DELETE"`, ...) and the memory text. -/
structure EngineEvent where
  id : Nat
  event : String
  memory : String
deriving DecidableEq, Repr

/-- One memory item returned by `memory_client.get_all`: the handlers read
`memory['id']` and `memory.get('hash')` and return the item verbatim. -/
structure ListItem where
  id : Nat
  hash : Option String
  data : String
deriving DecidableEq, Repr

/-- The shape of the value returned by `memory_client.get_all`, as the code
distinguishes it: a dict with a `results` key, a plain list, or anything
else. -/
inductive GetAllResult where
  | dictResults (items : List ListItem)
  | plainList (items : List ListItem)
  | other
deriving DecidableEq, Repr

/-- The `memories_list` extraction in `list_memories`: a dict with `results`
yields that list, a plain list is used as is, anything else yields `[]`. -/
def extractItems : GetAllResult → List ListItem
  | .dictResults items => items
  | .plainList items => items
  | .other => []

/-- A scored point of the Qdrant collection as `query_points` returns it:
payload user id, payload `data`/`hash`/`created_at`/`updated_at`, and the
similarity score against the current query. -/
structure ScoredPoint where
  id : Nat
  puser_id : String
  data : String
  hash : Option String
  created_at : Option Nat
  updated_at : Option Nat
  score : Int
deriving DecidableEq, Repr

/-- The qdrant filter built by `search_memory`: a `FieldCondition` on the
payload `user_id` plus, optionally, a `HasIdCondition` on an id list. -/
structure QdrantFilter where
  must_user_id : String
  has_id : Option (List Nat)
deriving DecidableEq, Repr

/-- Whether a stored point satisfies the filter: the payload user id matches
and, when a `HasIdCondition` is present, the point id is in its list. -/
def filterMatches (f : QdrantFilter) (p : ScoredPoint) : Bool :=
  p.puser_id == f.must_user_id &&
    (match f.has_id with
     | none => true
     | some ids => ids.contains p.id)

/-- Insertion of a point into a list sorted by descending score. -/
def insertDesc (p : ScoredPoint) : List ScoredPoint → List ScoredPoint
  | [] => [p]
  | q :: l => if q.score ≤ p.score then p :: q :: l else q :: insertDesc p l

/-- Insertion sort by descending score. -/
def sortDesc : List ScoredPoint → List ScoredPoint
  | [] => []
  | p :: l => insertDesc p (sortDesc l)

/-- Modelled from the spec: the external vector database is out of scope and
"answers filtered nearest-neighbor queries"; `query_points` returns the
stored points satisfying the filter, ordered by descending similarity score,
truncated to the limit (spec section 4.4: "Limit fixed at 10 nearest results
ordered by descending similarity score"). -/
def query_points (store : List ScoredPoint) (f : QdrantFilter) (limit : Nat) :
    List ScoredPoint :=
  (sortDesc (store.filter (filterMatches f))).take limit

/-- The external memory client, as the oracles the handlers consult:
`addResult` is `memory_client.add` (text, user id); `some events` stands for
a dict with a `results` key, `none` for any other return shape.  `getAll` is
`memory_client.get_all`.  `scoredPoints` is the Qdrant collection scored
against a query (consumed by `query_points`).  `deleteFails` tells whether
`memory_client.delete` raises for a given id. -/
structure MemoryClient where
  addResult : String → String → Option (List EngineEvent)
  getAll : String → GetAllResult
  scoredPoints : String → List ScoredPoint
  deleteFails : Nat → Bool

/-- An external engine call made by a handler, recorded for frame reasoning. -/
inductive EngineCall where
  | addCall (text user_id : String)
  | searchCall (query : String)
  | getAllCall (user_id : String)
  | deleteCall (id : Nat)
deriving DecidableEq, Repr

/-- A handler outcome: the JSON body is either a success value or an
`error` object with a message string. -/
inductive Resp (α : Type) where
  | ok (val : α)
  | error (msg : String)
deriving DecidableEq, Repr

/-- Modelled from the spec: `config.DEFAULT_USER_ID` is not under src/;
the tool docstrings state the default is `default_user`. -/
def DEFAULT_USER_ID : String := "default_user"

/-- Modelled from the spec: `config.DEFAULT_CLIENT_NAME` is not under src/;
the tool docstrings state the default is `default_app`. -/
def DEFAULT_CLIENT_NAME : String := "default_app"

/-- The user-facing error returned when `get_memory_client_safe` yields no
client. -/
def unavailableMsg : String :=
  "Memory system is currently unavailable. Please try again later."

/-- The lookup `db.query(User).filter(User.user_id == uid).first()`. -/
def findUser (db : Db) (uid : String) : Option UserRow :=
  db.users.find? (fun u => u.user_id == uid)

/-- The lookup `db.query(App).filter(App.owner_id == owner, App.name == name).first()`. -/
def findApp (db : Db) (owner : Nat) (name : String) : Option AppRow :=
  db.apps.find? (fun a => a.owner_id == owner && a.name == name)

/-- A primary-key value unused by any existing user row. -/
def freshUserId (db : Db) : Nat :=
  (db.users.map (fun u => u.id)).foldr max 0 + 1

/-- A primary-key value unused by any existing app row. -/
def freshAppId (db : Db) : Nat :=
  (db.apps.map (fun a => a.id)).foldr max 0 + 1

/-- The user/app rows resolved (or created) for a request, together with the
resulting user and app tables. -/
def resolveUserApp (db : Db) (user_id app_name : String) :
    UserRow × AppRow × List UserRow × List AppRow :=
  match findUser db user_id with
  | some u =>
    match findApp db u.id app_name with
    | some a => (u, a, db.users, db.apps)
    | none =>
      let a : AppRow := ⟨freshAppId db, u.id, app_name, true⟩
      (u, a, db.users, db.apps ++ [a])
  | none =>
    let u : UserRow := ⟨freshUserId db, user_id⟩
    let a : AppRow := ⟨freshAppId db, u.id, app_name, true⟩
    (u, a, db.users ++ [u], db.apps ++ [a])

/-- Modelled from the spec: `get_user_and_app` from `memory_utils` is not
under src/; per spec section 4.1 it returns the User and App records for the
given identifiers, creating either if missing, with a created App defaulting
to active.  Only the user and app tables are touched. -/
def get_user_and_app (db : Db) (user_id app_name : String) :
    UserRow × AppRow × Db :=
  let r := resolveUserApp db user_id app_name
  (r.1, r.2.1, { db with users := r.2.2.1, apps := r.2.2.2 })

/-- The accessible-id computation the three read/delete handlers repeat
verbatim: `db.query(Memory).filter(Memory.user_id == user.id).all()` (note:
no state filter), then the list comprehension keeping ids for which
`check_memory_access_permissions` returns true.  The permission predicate is
from `memory_utils`, not under src/; per spec section 4.2 it is an opaque
boolean oracle, so it is a parameter `perm` (memory row, app id). -/
def accessibleIds (db : Db) (perm : MemoryRow → Nat → Bool)
    (userId appId : Nat) : List Nat :=
  ((db.memories.filter (fun m => m.user_id == userId)).filter
      (fun m => perm m appId)).map (fun m => m.id)

/-- The accessible-id computation as the spec states it in section 4.4:
"iterating every active Memory owned by the user and applying the Access
Filter" — i.e. with memories in the deleted state excluded.  Kept for
comparison with `accessibleIds`, which is what the code computes. -/
def accessibleIdsSpec (db : Db) (perm : MemoryRow → Nat → Bool)
    (userId appId : Nat) : List Nat :=
  (((db.memories.filter (fun m => m.user_id == userId)).filter
        (fun m => m.state == MemoryState.active)).filter
      (fun m => perm m appId)).map (fun m => m.id)

/-- The row update `memory.state = active; memory.content = result['memory']`. -/
def updAdd (content : String) (m : MemoryRow) : MemoryRow :=
  { m with state := MemoryState.active, content := content }

/-- The row update `memory.state = deleted; memory.deleted_at = now`. -/
def markDel (now : Nat) (m : MemoryRow) : MemoryRow :=
  { m with state := MemoryState.deleted, deleted_at := some now }

/-- Processing of one element of `response['results']` in `add_memories`
(lines 84-122): look the id up in the ledger (only the presence of the row
matters to the control flow), then dispatch on the event kind.  `ADD`
upserts the row to active with the returned content and appends a history
row; in the source the history `old_state` is written as
`MemoryState.deleted if memory else None`, and at that point the name
`memory` has been (re)assigned to a row object in both branches, so the
conditional always takes the truthy branch and writes `deleted`.  `DELETE`
only acts when the row exists: it marks it deleted with a timestamp and
appends an active-to-deleted history row.  Any other event kind is ignored. -/
def processEvent (userId appId now : Nat) (d : Db) (r : EngineEvent) : Db :=
  let found := (d.memories.find? (fun m => m.id == r.id)).isSome
  if r.event == "ADD" then
    if found then
      { d with
        memories := d.memories.map (fun m =>
          if m.id == r.id then updAdd r.memory m else m),
        history := d.history ++
          [⟨r.id, userId, some MemoryState.deleted, MemoryState.active⟩] }
    else
      { d with
        memories := d.memories ++
          [⟨r.id, userId, appId, r.memory, MemoryState.active, none⟩],
        history := d.history ++
          [⟨r.id, userId, some MemoryState.deleted, MemoryState.active⟩] }
  else if r.event == "DELETE" then
    if found then
      { d with
        memories := d.memories.map (fun m =>
          if m.id == r.id then markDel now m else m),
        history := d.history ++
          [⟨r.id, userId, some MemoryState.active, MemoryState.deleted⟩] }
    else d
  else d

/-- The `add_memories` tool handler (lines 41-129).  Returns the JSON body,
the committed ledger state, and the external engine calls made. -/
def add_memories (clientQ : Option MemoryClient) (db : Db) (now : Nat)
    (text : String) (user_idQ client_nameQ : Option String) :
    Resp (Option (List EngineEvent)) × Db × List EngineCall :=
  let user_id := user_idQ.getD DEFAULT_USER_ID
  let client_name := client_nameQ.getD DEFAULT_CLIENT_NAME
  match clientQ with
  | none => (.error unavailableMsg, db, [])
  | some client =>
    let r := get_user_and_app db user_id client_name
    let user := r.1
    let app := r.2.1
    let db1 := r.2.2
    if !app.is_active then
      (.error ("App " ++ app.name ++
        " is currently paused on OpenMemory. Cannot create new memories."),
        db1, [])
    else
      let response := client.addResult text user_id
      let calls := [EngineCall.addCall text user_id]
      match response with
      | some results =>
        (.ok response, results.foldl (processEvent user.id app.id now) db1,
          calls)
      | none => (.ok response, db1, calls)

/-- One entry of the JSON array `search_memory` returns, built from a hit. -/
structure SearchHit where
  id : Nat
  memory : String
  hash : Option String
  created_at : Option Nat
  updated_at : Option Nat
  score : Int
deriving DecidableEq, Repr

/-- The dict built from a scored point in `search_memory` (lines 192-202). -/
def toSearchHit (p : ScoredPoint) : SearchHit :=
  ⟨p.id, p.data, p.hash, p.created_at, p.updated_at, p.score⟩

/-- The access-log row written for one search hit (lines 208-218). -/
def searchLogRow (appId : Nat) (query : String) (h : SearchHit) :
    AccessLogRow :=
  ⟨h.id, appId, "search", ⟨some query, some h.score, h.hash, none⟩⟩

/-- The `search_memory` tool handler (lines 133-224): resolve identity,
compute the accessible id list, build the qdrant filter (the
`HasIdCondition` is appended only when the list is non-empty), query the
vector store with limit 10, map hits to result dicts, and append one
access-log row per hit. -/
def search_memory (clientQ : Option MemoryClient)
    (perm : MemoryRow → Nat → Bool) (db : Db) (query : String)
    (user_idQ client_nameQ : Option String) :
    Resp (List SearchHit) × Db × List EngineCall :=
  let user_id := user_idQ.getD DEFAULT_USER_ID
  let client_name := client_nameQ.getD DEFAULT_CLIENT_NAME
  match clientQ with
  | none => (.error unavailableMsg, db, [])
  | some client =>
    let r := get_user_and_app db user_id client_name
    let app := r.2.1
    let db1 := r.2.2
    let accessible_memory_ids := accessibleIds db1 perm r.1.id app.id
    let filters : QdrantFilter :=
      ⟨user_id,
        if accessible_memory_ids.isEmpty then none
        else some accessible_memory_ids⟩
    let hits := query_points (client.scoredPoints query) filters 10
    let memories := hits.map toSearchHit
    (.ok memories,
      { db1 with
        accessLogs := db1.accessLogs ++ memories.map (searchLogRow app.id query) },
      [EngineCall.searchCall query])

/-- The access-log row written for one returned list entry (lines 273-281). -/
def listLogRow (appId : Nat) (it : ListItem) : AccessLogRow :=
  ⟨it.id, appId, "list", ⟨none, none, it.hash, none⟩⟩

/-- The `list_memories` tool handler (lines 228-288): resolve identity,
fetch all memories from the engine, compute the accessible id list, keep
engine items whose id is accessible, appending one access-log row per kept
item. -/
def list_memories (clientQ : Option MemoryClient)
    (perm : MemoryRow → Nat → Bool) (db : Db)
    (user_idQ client_nameQ : Option String) :
    Resp (List ListItem) × Db × List EngineCall :=
  let user_id := user_idQ.getD DEFAULT_USER_ID
  let client_name := client_nameQ.getD DEFAULT_CLIENT_NAME
  match clientQ with
  | none => (.error unavailableMsg, db, [])
  | some client =>
    let r := get_user_and_app db user_id client_name
    let app := r.2.1
    let db1 := r.2.2
    let accessible_memory_ids := accessibleIds db1 perm r.1.id app.id
    let memories_list := extractItems (client.getAll user_id)
    let filtered_memories :=
      memories_list.filter (fun it => accessible_memory_ids.contains it.id)
    (.ok filtered_memories,
      { db1 with
        accessLogs := db1.accessLogs ++ filtered_memories.map (listLogRow app.id) },
      [EngineCall.getAllCall user_id])

/-- The history row written for one deleted memory in `delete_all_memories`
(lines 339-345). -/
def deleteHistRow (userId mid : Nat) : HistoryRow :=
  ⟨mid, userId, some MemoryState.active, MemoryState.deleted⟩

/-- The access-log row written for one deleted memory (lines 348-354). -/
def deleteLogRow (appId mid : Nat) : AccessLogRow :=
  ⟨mid, appId, "delete_all", ⟨none, none, none, some "bulk_delete"⟩⟩

/-- The ledger update for one accessible id in the second loop of
`delete_all_memories` (lines 332-354): mark the row deleted with the shared
timestamp, append a history row and an access-log row.  (The per-id
`first()` lookup always succeeds: the id came from this session's rows.) -/
def deleteStep (userId appId now : Nat) (d : Db) (mid : Nat) : Db :=
  { d with
    memories := d.memories.map (fun m => if m.id == mid then markDel now m else m),
    history := d.history ++ [deleteHistRow userId mid],
    accessLogs := d.accessLogs ++ [deleteLogRow appId mid] }

/-- The `delete_all_memories` tool handler (lines 292-360): resolve
identity, compute the accessible id list, call the engine delete for each id
(exceptions are caught and logged, so `deleteFails` never influences the
rest), then run the ledger update loop and commit. -/
def delete_all_memories (clientQ : Option MemoryClient)
    (perm : MemoryRow → Nat → Bool) (db : Db) (now : Nat)
    (user_idQ client_nameQ : Option String) :
    Resp String × Db × List EngineCall :=
  let user_id := user_idQ.getD DEFAULT_USER_ID
  let client_name := client_nameQ.getD DEFAULT_CLIENT_NAME
  match clientQ with
  | none => (.error unavailableMsg, db, [])
  | some _client =>
    let r := get_user_and_app db user_id client_name
    let user := r.1
    let app := r.2.1
    let db1 := r.2.2
    let accessible_memory_ids := accessibleIds db1 perm user.id app.id
    let calls := accessible_memory_ids.map EngineCall.deleteCall
    (.ok "Successfully deleted all memories",
      accessible_memory_ids.foldl (deleteStep user.id app.id now) db1,
      calls)

/-- A ledger whose only memory row is in the deleted state, owned by the
default user and app. -/
def cexDb : Db :=
  ⟨[⟨1, "default_user"⟩], [⟨1, 1, "default_app", true⟩],
    [⟨5, 1, 1, "tea fact", MemoryState.deleted, some 0⟩], [], []⟩

/-- A client whose `get_all` returns the single item with id 5. -/
def cexClient : MemoryClient :=
  ⟨fun _ _ => none, fun _ => .plainList [⟨5, none, "tea fact"⟩], fun _ => [],
    fun _ => false⟩

/-- A client whose `add` always reports one `ADD` event with a fresh id. -/
def bugClient : MemoryClient :=
  ⟨fun _ _ => some [⟨7, "ADD", "I like tea"⟩], fun _ => .other, fun _ => [],
    fun _ => false⟩

/-- An empty ledger holding only the default user and app. -/
def baseDb : Db :=
  ⟨[⟨1, "default_user"⟩], [⟨1, 1, "default_app", true⟩], [], [], []⟩

/-- A ledger with one active memory owned by the default user and app. -/
def wDb : Db :=
  ⟨[⟨1, "default_user"⟩], [⟨1, 1, "default_app", true⟩],
    [⟨3, 1, 1, "note", MemoryState.active, none⟩], [], []⟩

/-- A ledger whose default app is paused. -/
def pausedDb : Db :=
  ⟨[⟨1, "default_user"⟩], [⟨1, 1, "default_app", false⟩], [], [], []⟩

/-- A client whose scored collection holds one point with id 5 belonging to
the default user. -/
def wClient1 : MemoryClient :=
  ⟨fun _ _ => none, fun _ => .other,
    fun _ => [⟨5, "default_user", "tea fact", none, none, none, 3⟩],
    fun _ => false⟩

/-- A client whose `add` reports one DELETE event for the existing id 3. -/
def wClient4 : MemoryClient :=
  ⟨fun _ _ => some [⟨3, "DELETE", ""⟩], fun _ => .other, fun _ => [],
    fun _ => false⟩

/-- A client whose `add` reports one DELETE event for the absent id 8. -/
def wClient10 : MemoryClient :=
  ⟨fun _ _ => some [⟨8, "DELETE", ""⟩], fun _ => .other, fun _ => [],
    fun _ => false⟩

/-- Identity resolution touches only the user and app tables: the memory,
history, and access-log tables come back unchanged. -/
theorem get_user_and_app_frame (db : Db) (u c : String) :
    ((get_user_and_app db u c).2.2).memories = db.memories ∧
    ((get_user_and_app db u c).2.2).history = db.history ∧
    ((get_user_and_app db u c).2.2).accessLogs = db.accessLogs :=
  ⟨rfl, rfl, rfl⟩

/-- C9: when `get_memory_client_safe` yields no client, each of the four
handlers returns the fixed user-facing unavailability error with the ledger
untouched and no engine call made (i.e. before any database work). -/
theorem unavailable_client_short_circuits (perm : MemoryRow → Nat → Bool)
    (db : Db) (now : Nat) (text query : String) (uidQ cnQ : Option String) :
    add_memories none db now text uidQ cnQ = (.error unavailableMsg, db, []) ∧
    search_memory none perm db query uidQ cnQ = (.error unavailableMsg, db, []) ∧
    list_memories none perm db uidQ cnQ = (.error unavailableMsg, db, []) ∧
    delete_all_memories none perm db now uidQ cnQ =
      (.error unavailableMsg, db, []) :=
  ⟨rfl, rfl, rfl, rfl⟩

/-- The delete loop appends one history row per processed id, in order. -/
theorem foldl_deleteStep_history (u a now : Nat) (ids : List Nat) (d : Db) :
    (ids.foldl (deleteStep u a now) d).history =
      d.history ++ ids.map (deleteHistRow u) := by
  induction ids generalizing d with
  | nil => simp
  | cons i l ih => simp [List.foldl_cons, ih, deleteStep]

/-- The delete loop appends one access-log row per processed id, in order. -/
theorem foldl_deleteStep_logs (u a now : Nat) (ids : List Nat) (d : Db) :
    (ids.foldl (deleteStep u a now) d).accessLogs =
      d.accessLogs ++ ids.map (deleteLogRow a) := by
  induction ids generalizing d with
  | nil => simp
  | cons i l ih => simp [List.foldl_cons, ih, deleteStep]

/-- The delete loop marks exactly the rows whose id it processes. -/
theorem foldl_deleteStep_memories (u a now : Nat) (ids : List Nat) (d : Db) :
    (ids.foldl (deleteStep u a now) d).memories =
      d.memories.map (fun m => if ids.contains m.id then markDel now m else m) := by
  induction ids generalizing d with
  | nil => simp
  | cons i l ih =>
    simp only [List.foldl_cons, ih, deleteStep, List.map_map]
    congr 1
    funext m
    by_cases h : m.id = i
    · simp [Function.comp, markDel, h]
    · by_cases h2 : l.contains m.id <;>
        simp [Function.comp, markDel, h, h2, Ne.symm h]

/-- When the ledger's memory ids are pairwise distinct, so is the computed
accessible id list. -/
theorem accessibleIds_nodup (db : Db) (perm : MemoryRow → Nat → Bool)
    (u a : Nat) (h : (db.memories.map (fun m => m.id)).Nodup) :
    (accessibleIds db perm u a).Nodup := by
  unfold accessibleIds
  have hsub :
      ((db.memories.filter (fun m => m.user_id == u)).filter
        (fun m => perm m a)).Sublist db.memories :=
    (List.filter_sublist _).trans (List.filter_sublist _)
  exact (hsub.map (fun m => m.id)).nodup h

/-- Membership is invariant under sorted insertion. -/
theorem mem_insertDesc (a p : ScoredPoint) (l : List ScoredPoint) :
    a ∈ insertDesc p l ↔ a = p ∨ a ∈ l := by
  induction l with
  | nil => simp [insertDesc]
  | cons q t ih =>
    simp only [insertDesc]
    split
    · simp [List.mem_cons]
    · simp only [List.mem_cons, ih]
      tauto

/-- Sorting by descending score preserves membership. -/
theorem mem_sortDesc (a : ScoredPoint) (l : List ScoredPoint) :
    a ∈ sortDesc l ↔ a ∈ l := by
  induction l with
  | nil => simp [sortDesc]
  | cons p t ih => simp [sortDesc, mem_insertDesc, ih]

/-- C2 counterexample: the handlers' accessible-id computation iterates the
user's memories with no state filter, so a deleted memory accepted by the
permission oracle lands in the accessible set (and is observable: the
deleted id is returned by `list_memories`), while the set described by the
spec's wording excludes it. -/
theorem accessible_set_keeps_deleted_cex :
    (∀ m ∈ cexDb.memories, m.state = MemoryState.deleted) ∧
    accessibleIds cexDb (fun _ _ => true) 1 1 = [5] ∧
    accessibleIdsSpec cexDb (fun _ _ => true) 1 1 = [] ∧
    (list_memories (some cexClient) (fun _ _ => true) cexDb none none).1 =
      Resp.ok [⟨5, none, "tea fact"⟩] := by
  decide

/-- C3 (code bug evidence): processing the `ADD` event for an id with no
existing Memory row, the handler creates the row active with the returned
content, but the single history row it writes carries
`old_state = some deleted` — not "no prior state" — because the source's
`MemoryState.deleted if memory else None` tests the `memory` variable after
it was reassigned to the newly created row, so it is always truthy. -/
theorem add_history_old_state_deleted_for_fresh_row :
    baseDb.memories = [] ∧
    ((add_memories (some bugClient) baseDb 0 "I like tea" none none).2.1).memories =
      [⟨7, 1, 1, "I like tea", MemoryState.active, none⟩] ∧
    ((add_memories (some bugClient) baseDb 0 "I like tea" none none).2.1).history =
      [⟨7, 1, some MemoryState.deleted, MemoryState.active⟩] := by
  decide

/-- C8: when the resolved App is paused, `add_memories` returns the
user-facing error naming the app, makes no engine call, and leaves the
memory, history, and access-log tables unchanged. -/
theorem add_paused_app_rejects_without_mutation (client : MemoryClient)
    (db : Db) (now : Nat) (text : String) (uidQ cnQ : Option String)
    (hpaused : ((get_user_and_app db (uidQ.getD DEFAULT_USER_ID)
        (cnQ.getD DEFAULT_CLIENT_NAME)).2.1).is_active = false) :
    (add_memories (some client) db now text uidQ cnQ).1 =
      .error ("App " ++ ((get_user_and_app db (uidQ.getD DEFAULT_USER_ID)
          (cnQ.getD DEFAULT_CLIENT_NAME)).2.1).name ++
        " is currently paused on OpenMemory. Cannot create new memories.") ∧
    ((add_memories (some client) db now text uidQ cnQ).2.1).memories =
      db.memories ∧
    ((add_memories (some client) db now text uidQ cnQ).2.1).history =
      db.history ∧
    ((add_memories (some client) db now text uidQ cnQ).2.1).accessLogs =
      db.accessLogs ∧
    (add_memories (some client) db now text uidQ cnQ).2.2 = [] := by
  simp only [add_memories, hpaused]
  exact ⟨rfl, rfl, rfl, rfl, rfl⟩

/-- C6: `search_memory` succeeds and appends exactly one `"search"`
access-log row per returned hit, in order, recording the query text and
that hit's similarity score (and hash) in the metadata. -/
theorem search_writes_one_log_per_hit (client : MemoryClient)
    (perm : MemoryRow → Nat → Bool) (db : Db) (query : String)
    (uidQ cnQ : Option String) :
    ∃ hits : List SearchHit,
      (search_memory (some client) perm db query uidQ cnQ).1 = Resp.ok hits ∧
      ((search_memory (some client) perm db query uidQ cnQ).2.1).accessLogs =
        db.accessLogs ++ hits.map (searchLogRow
          ((get_user_and_app db (uidQ.getD DEFAULT_USER_ID)
            (cnQ.getD DEFAULT_CLIENT_NAME)).2.1).id query) :=
  ⟨_, rfl, rfl⟩

/-- C2 amended: the three read/delete handlers all use the accessible id set
computed by iterating every Memory owned by the resolved user regardless of
lifecycle state and keeping those the permission oracle accepts;
`list_memories` keeps exactly the engine items with an accessible id,
`delete_all_memories` writes exactly one history row per accessible id, and
`search_memory` queries the vector store under the filter built from that
set (id condition present exactly when the set is non-empty). -/
theorem handlers_accessible_set_all_states (client : MemoryClient)
    (perm : MemoryRow → Nat → Bool) (db : Db) (now : Nat) (query : String)
    (uidQ cnQ : Option String) :
    let uid := uidQ.getD DEFAULT_USER_ID
    let r := get_user_and_app db uid (cnQ.getD DEFAULT_CLIENT_NAME)
    let A := accessibleIds r.2.2 perm r.1.id r.2.1.id
    (list_memories (some client) perm db uidQ cnQ).1 =
      Resp.ok ((extractItems (client.getAll uid)).filter
        (fun it => A.contains it.id)) ∧
    ((delete_all_memories (some client) perm db now uidQ cnQ).2.1).history =
      db.history ++ A.map (deleteHistRow r.1.id) ∧
    (search_memory (some client) perm db query uidQ cnQ).1 =
      Resp.ok ((query_points (client.scoredPoints query)
        ⟨uid, if A.isEmpty then none else some A⟩ 10).map toSearchHit) := by
  intro uid r A
  refine ⟨rfl, ?_, rfl⟩
  show (A.foldl (deleteStep r.1.id r.2.1.id now) r.2.2).history = _
  rw [foldl_deleteStep_history]
  rfl

/-- C5: whatever the per-id engine-delete outcomes (the `deleteFails` oracle
is arbitrary and never consulted by the ledger loop), `delete_all_memories`
reports success, marks every row with an accessible id deleted with the
shared timestamp, appends exactly one active-to-deleted history row and one
`"delete_all"` access-log row per accessible id, and issues one engine
delete call per accessible id. -/
theorem delete_all_marks_accessible_deleted (client : MemoryClient)
    (perm : MemoryRow → Nat → Bool) (db : Db) (now : Nat)
    (uidQ cnQ : Option String)
    (hids : (db.memories.map (fun m => m.id)).Nodup) :
    let r := get_user_and_app db (uidQ.getD DEFAULT_USER_ID)
      (cnQ.getD DEFAULT_CLIENT_NAME)
    let A := accessibleIds r.2.2 perm r.1.id r.2.1.id
    A.Nodup ∧
    (delete_all_memories (some client) perm db now uidQ cnQ).1 =
      Resp.ok "Successfully deleted all memories" ∧
    (∀ m ∈ ((delete_all_memories (some client) perm db now uidQ cnQ).2.1).memories,
        m.id ∈ A → m.state = MemoryState.deleted ∧ m.deleted_at = some now) ∧
    ((delete_all_memories (some client) perm db now uidQ cnQ).2.1).history =
      db.history ++ A.map (deleteHistRow r.1.id) ∧
    ((delete_all_memories (some client) perm db now uidQ cnQ).2.1).accessLogs =
      db.accessLogs ++ A.map (deleteLogRow r.2.1.id) ∧
    (delete_all_memories (some client) perm db now uidQ cnQ).2.2 =
      A.map EngineCall.deleteCall := by
  intro r A
  have hmemeq := foldl_deleteStep_memories r.1.id r.2.1.id now A r.2.2
  have hhist := foldl_deleteStep_history r.1.id r.2.1.id now A r.2.2
  have hlogs := foldl_deleteStep_logs r.1.id r.2.1.id now A r.2.2
  refine ⟨accessibleIds_nodup r.2.2 perm r.1.id r.2.1.id hids, rfl, ?_, ?_, ?_, rfl⟩
  · intro m hm hin
    have hm2 : m ∈ (A.foldl (deleteStep r.1.id r.2.1.id now) r.2.2).memories := hm
    rw [hmemeq] at hm2
    obtain ⟨m0, hm0, hEq⟩ := List.mem_map.mp hm2
    by_cases hc : A.contains m0.id = true
    · simp only [hc, if_true] at hEq
      rw [← hEq]
      exact ⟨rfl, rfl⟩
    · simp only [hc, if_false] at hEq
      rw [← hEq] at hin
      exact absurd (List.elem_eq_true_of_mem hin) hc
  · show (A.foldl (deleteStep r.1.id r.2.1.id now) r.2.2).history = _
    rw [hhist]; rfl
  · show (A.foldl (deleteStep r.1.id r.2.1.id now) r.2.2).accessLogs = _
    rw [hlogs]; rfl

/-- Closed instance of `delete_all_marks_accessible_deleted`. -/
theorem delete_all_marks_accessible_deleted_witness :
    (wDb.memories.map (fun m => m.id)).Nodup ∧
    (let r := get_user_and_app wDb ((none : Option String).getD DEFAULT_USER_ID)
        ((none : Option String).getD DEFAULT_CLIENT_NAME)
     let A := accessibleIds r.2.2 (fun _ _ => true) r.1.id r.2.1.id
     A.Nodup ∧
     (delete_all_memories (some cexClient) (fun _ _ => true) wDb 42 none none).1 =
       Resp.ok "Successfully deleted all memories" ∧
     (∀ m ∈ ((delete_all_memories (some cexClient) (fun _ _ => true) wDb 42 none none).2.1).memories,
         m.id ∈ A → m.state = MemoryState.deleted ∧ m.deleted_at = some 42) ∧
     ((delete_all_memories (some cexClient) (fun _ _ => true) wDb 42 none none).2.1).history =
       wDb.history ++ A.map (deleteHistRow r.1.id) ∧
     ((delete_all_memories (some cexClient) (fun _ _ => true) wDb 42 none none).2.1).accessLogs =
       wDb.accessLogs ++ A.map (deleteLogRow r.2.1.id) ∧
     (delete_all_memories (some cexClient) (fun _ _ => true) wDb 42 none none).2.2 =
       A.map EngineCall.deleteCall) :=
  ⟨by decide,
    delete_all_marks_accessible_deleted cexClient (fun _ _ => true) wDb 42
      none none (by decide)⟩

/-- C7: `list_memories` succeeds, returns only entries whose id is in the
accessible set, returns no more entries than that set has ids, and appends
exactly one `"list"` access-log row per returned entry, in order.  The two
distinctness hypotheses say the ledger's primary keys and the engine's
returned ids are duplicate-free. -/
theorem list_memories_accessible_and_logged (client : MemoryClient)
    (perm : MemoryRow → Nat → Bool) (db : Db) (uidQ cnQ : Option String)
    (hitems : ((extractItems (client.getAll (uidQ.getD DEFAULT_USER_ID))).map
        (fun it => it.id)).Nodup) :
    let r := get_user_and_app db (uidQ.getD DEFAULT_USER_ID)
      (cnQ.getD DEFAULT_CLIENT_NAME)
    let A := accessibleIds r.2.2 perm r.1.id r.2.1.id
    ∃ items : List ListItem,
      (list_memories (some client) perm db uidQ cnQ).1 = Resp.ok items ∧
      (∀ it ∈ items, it.id ∈ A) ∧
      items.length ≤ A.length ∧
      ((list_memories (some client) perm db uidQ cnQ).2.1).accessLogs =
        db.accessLogs ++ items.map (listLogRow r.2.1.id) := by
  intro r A
  refine ⟨(extractItems (client.getAll (uidQ.getD DEFAULT_USER_ID))).filter
      (fun it => A.contains it.id), rfl, ?_, ?_, rfl⟩
  · intro it hit
    have hc : A.contains it.id = true := by
      have := List.of_mem_filter hit
      simpa using this
    exact List.mem_of_elem_eq_true hc
  · have hsl : (((extractItems (client.getAll (uidQ.getD DEFAULT_USER_ID))).filter
        (fun it => A.contains it.id)).map (fun it => it.id)).Sublist
        ((extractItems (client.getAll (uidQ.getD DEFAULT_USER_ID))).map
          (fun it => it.id)) :=
      (List.filter_sublist
        (extractItems (client.getAll (uidQ.getD DEFAULT_USER_ID)))).map
        (fun it => it.id)
    have hnd : (((extractItems (client.getAll (uidQ.getD DEFAULT_USER_ID))).filter
        (fun it => A.contains it.id)).map (fun it => it.id)).Nodup :=
      hsl.nodup hitems
    have hsubs : (((extractItems (client.getAll (uidQ.getD DEFAULT_USER_ID))).filter
        (fun it => A.contains it.id)).map (fun it => it.id)) ⊆ A := by
      intro x hx
      obtain ⟨it, hit, hxe⟩ := List.mem_map.mp hx
      rw [← hxe]
      have hc : A.contains it.id = true := by
        have := List.of_mem_filter hit
        simpa using this
      exact List.mem_of_elem_eq_true hc
    calc ((extractItems (client.getAll (uidQ.getD DEFAULT_USER_ID))).filter
          (fun it => A.contains it.id)).length
        = (((extractItems (client.getAll (uidQ.getD DEFAULT_USER_ID))).filter
            (fun it => A.contains it.id)).map (fun it => it.id)).length :=
          (List.length_map _ _).symm
      _ = (((extractItems (client.getAll (uidQ.getD DEFAULT_USER_ID))).filter
            (fun it => A.contains it.id)).map (fun it => it.id)).toFinset.card :=
          (List.toFinset_card_of_nodup hnd).symm
      _ ≤ A.toFinset.card := Finset.card_le_card (fun x hx => by
          simp only [List.mem_toFinset] at hx ⊢
          exact hsubs hx)
      _ ≤ A.length := List.toFinset_card_le A

/-- Closed instance of `list_memories_accessible_and_logged`. -/
theorem list_memories_accessible_and_logged_witness :
    ((extractItems (cexClient.getAll ((none : Option String).getD DEFAULT_USER_ID))).map
        (fun it => it.id)).Nodup ∧
    (let r := get_user_and_app cexDb ((none : Option String).getD DEFAULT_USER_ID)
        ((none : Option String).getD DEFAULT_CLIENT_NAME)
     let A := accessibleIds r.2.2 (fun _ _ => true) r.1.id r.2.1.id
     ∃ items : List ListItem,
       (list_memories (some cexClient) (fun _ _ => true) cexDb none none).1 =
         Resp.ok items ∧
       (∀ it ∈ items, it.id ∈ A) ∧
       items.length ≤ A.length ∧
       ((list_memories (some cexClient) (fun _ _ => true) cexDb none none).2.1).accessLogs =
         cexDb.accessLogs ++ items.map (listLogRow r.2.1.id)) :=
  ⟨by decide,
    list_memories_accessible_and_logged cexClient (fun _ _ => true) cexDb
      none none (by decide)⟩

/-- C1: when the computed accessible id set is non-empty, the vector query
is constrained to exactly that id set (plus the user id), so no hit with an
id outside the set can appear in the returned results. -/
theorem search_hits_within_accessible (client : MemoryClient)
    (perm : MemoryRow → Nat → Bool) (db : Db) (query : String)
    (uidQ cnQ : Option String) :
    let r := get_user_and_app db (uidQ.getD DEFAULT_USER_ID)
      (cnQ.getD DEFAULT_CLIENT_NAME)
    let A := accessibleIds r.2.2 perm r.1.id r.2.1.id
    A ≠ [] →
    ∀ hits : List SearchHit,
      (search_memory (some client) perm db query uidQ cnQ).1 = Resp.ok hits →
      ∀ h ∈ hits, h.id ∈ A := by
  intro r A hne hits heq h hh
  have hAe : A.isEmpty = false := by
    cases hA2 : A with
    | nil => exact absurd hA2 hne
    | cons x l => rfl
  have h3 : Resp.ok ((query_points (client.scoredPoints query)
      ⟨uidQ.getD DEFAULT_USER_ID,
        if A.isEmpty then none else some A⟩ 10).map toSearchHit) =
      Resp.ok hits := heq
  rw [hAe] at h3
  simp only [Bool.false_eq_true, if_false] at h3
  have h4 : ((query_points (client.scoredPoints query)
      ⟨uidQ.getD DEFAULT_USER_ID, some A⟩ 10).map toSearchHit) = hits := by
    injection h3
  rw [← h4] at hh
  obtain ⟨p, hp, hph⟩ := List.mem_map.mp hh
  have hp2 : p ∈ (client.scoredPoints query).filter
      (filterMatches ⟨uidQ.getD DEFAULT_USER_ID, some A⟩) :=
    (mem_sortDesc p _).mp (List.mem_of_mem_take hp)
  have hmatch := (List.mem_filter.mp hp2).2
  have hcontains : A.contains p.id = true := by
    have := (Bool.and_eq_true _ _).mp hmatch
    simpa [filterMatches] using this.2
  rw [← hph]
  exact List.mem_of_elem_eq_true hcontains

/-- Closed instance of `search_hits_within_accessible`. -/
theorem search_hits_within_accessible_witness :
    accessibleIds (get_user_and_app cexDb "default_user" "default_app").2.2
      (fun _ _ => true)
      (get_user_and_app cexDb "default_user" "default_app").1.id
      (get_user_and_app cexDb "default_user" "default_app").2.1.id ≠ [] ∧
    (∀ h ∈ ([⟨5, "tea fact", none, none, none, 3⟩] : List SearchHit),
      h.id ∈ accessibleIds (get_user_and_app cexDb "default_user" "default_app").2.2
        (fun _ _ => true)
        (get_user_and_app cexDb "default_user" "default_app").1.id
        (get_user_and_app cexDb "default_user" "default_app").2.1.id) :=
  ⟨by decide,
    search_hits_within_accessible wClient1 (fun _ _ => true) cexDb "tea"
      none none (by decide) [⟨5, "tea fact", none, none, none, 3⟩] (by decide)⟩

/-- The guarded per-row updates used by the event loop keep the row id. -/
theorem ite_upd_id (rid : Nat) (f : MemoryRow → MemoryRow)
    (hf : ∀ m, (f m).id = m.id) (m : MemoryRow) :
    (if m.id == rid then f m else m).id = m.id := by
  split
  · exact hf m
  · rfl

/-- The four possible shapes of one event step: ADD over an existing row,
ADD creating a row, DELETE over an existing row, or no change. -/
theorem processEvent_cases (u a now : Nat) (d : Db) (r : EngineEvent) :
    (r.event = "ADD" ∧ processEvent u a now d r =
      { d with
        memories := d.memories.map (fun m =>
          if m.id == r.id then updAdd r.memory m else m),
        history := d.history ++
          [⟨r.id, u, some MemoryState.deleted, MemoryState.active⟩] }) ∨
    (r.event = "ADD" ∧ processEvent u a now d r =
      { d with
        memories := d.memories ++
          [⟨r.id, u, a, r.memory, MemoryState.active, none⟩],
        history := d.history ++
          [⟨r.id, u, some MemoryState.deleted, MemoryState.active⟩] }) ∨
    (r.event = "DELETE" ∧ processEvent u a now d r =
      { d with
        memories := d.memories.map (fun m =>
          if m.id == r.id then markDel now m else m),
        history := d.history ++
          [⟨r.id, u, some MemoryState.active, MemoryState.deleted⟩] }) ∨
    processEvent u a now d r = d := by
  by_cases h1 : (r.event == "ADD") = true
  · by_cases h2 : ((d.memories.find? (fun m => m.id == r.id)).isSome) = true
    · refine Or.inl ⟨by simpa using h1, ?_⟩
      simp only [processEvent]
      rw [if_pos h1, if_pos h2]
    · refine Or.inr (Or.inl ⟨by simpa using h1, ?_⟩)
      simp only [processEvent]
      rw [if_pos h1, if_neg h2]
  · by_cases h3 : (r.event == "DELETE") = true
    · by_cases h2 : ((d.memories.find? (fun m => m.id == r.id)).isSome) = true
      · refine Or.inr (Or.inr (Or.inl ⟨by simpa using h3, ?_⟩))
        simp only [processEvent]
        rw [if_neg h1, if_pos h3, if_pos h2]
      · refine Or.inr (Or.inr (Or.inr ?_))
        simp only [processEvent]
        rw [if_neg h1, if_pos h3, if_neg h2]
    · refine Or.inr (Or.inr (Or.inr ?_))
      simp only [processEvent]
      rw [if_neg h1, if_neg h3]

/-- The event loop never touches the access-log table. -/
theorem processEvent_accessLogs (u a now : Nat) (d : Db) (r : EngineEvent) :
    (processEvent u a now d r).accessLogs = d.accessLogs := by
  rcases processEvent_cases u a now d r with ⟨_, h⟩ | ⟨_, h⟩ | ⟨_, h⟩ | h <;>
    rw [h]

/-- The event step only appends to the history table. -/
theorem processEvent_history_mono (u a now : Nat) (d : Db) (r : EngineEvent)
    (x : HistoryRow) (hx : x ∈ d.history) :
    x ∈ (processEvent u a now d r).history := by
  rcases processEvent_cases u a now d r with ⟨_, h⟩ | ⟨_, h⟩ | ⟨_, h⟩ | h <;>
    rw [h]
  · exact List.mem_append_left _ hx
  · exact List.mem_append_left _ hx
  · exact List.mem_append_left _ hx
  · exact hx

/-- A history row present after an event step was already present or was
written for this event's memory id. -/
theorem processEvent_history_new (u a now : Nat) (d : Db) (r : EngineEvent)
    (x : HistoryRow) (hx : x ∈ (processEvent u a now d r).history) :
    x ∈ d.history ∨ x.memory_id = r.id := by
  rcases processEvent_cases u a now d r with ⟨_, h⟩ | ⟨_, h⟩ | ⟨_, h⟩ | h <;>
    rw [h] at hx
  · rcases List.mem_append.mp hx with h1 | h1
    · exact Or.inl h1
    · rw [List.mem_singleton.mp h1]
      exact Or.inr rfl
  · rcases List.mem_append.mp hx with h1 | h1
    · exact Or.inl h1
    · rw [List.mem_singleton.mp h1]
      exact Or.inr rfl
  · rcases List.mem_append.mp hx with h1 | h1
    · exact Or.inl h1
    · rw [List.mem_singleton.mp h1]
      exact Or.inr rfl
  · exact Or.inl hx

/-- An id present in the ledger stays present across an event step. -/
theorem processEvent_id_present (u a now : Nat) (d : Db) (r : EngineEvent)
    (i : Nat) (h : ∃ m ∈ d.memories, m.id = i) :
    ∃ m ∈ (processEvent u a now d r).memories, m.id = i := by
  obtain ⟨m, hm, hi⟩ := h
  rcases processEvent_cases u a now d r with ⟨_, he⟩ | ⟨_, he⟩ | ⟨_, he⟩ | he <;>
    rw [he]
  · exact ⟨_, List.mem_map_of_mem _ hm,
      by rw [ite_upd_id r.id (updAdd r.memory) (fun _ => rfl) m]; exact hi⟩
  · exact ⟨m, List.mem_append_left _ hm, hi⟩
  · exact ⟨_, List.mem_map_of_mem _ hm,
      by rw [ite_upd_id r.id (markDel now) (fun _ => rfl) m]; exact hi⟩
  · exact ⟨m, hm, hi⟩

/-- An event that is not an ADD for the watched id preserves the
already-deleted mark on all rows with that id. -/
theorem processEvent_preserves_marked (u a now : Nat) (d : Db)
    (r : EngineEvent) (rid : Nat) (hr : r.id ≠ rid ∨ r.event = "DELETE")
    (hP : ∀ m ∈ d.memories, m.id = rid →
      m.state = MemoryState.deleted ∧ m.deleted_at = some now) :
    ∀ m ∈ (processEvent u a now d r).memories, m.id = rid →
      m.state = MemoryState.deleted ∧ m.deleted_at = some now := by
  intro m hm hid
  rcases processEvent_cases u a now d r with
    ⟨he, heq⟩ | ⟨he, heq⟩ | ⟨he, heq⟩ | heq <;> rw [heq] at hm
  · have hrid : r.id ≠ rid := by
      rcases hr with h | h
      · exact h
      · rw [he] at h
        exact absurd h (by decide)
    obtain ⟨m0, hm0, hEq⟩ := List.mem_map.mp hm
    by_cases hc : (m0.id == r.id) = true
    · exfalso
      have h4 : m.id = m0.id := by
        rw [← hEq]
        exact ite_upd_id r.id (updAdd r.memory) (fun _ => rfl) m0
      have h0 : m0.id = r.id := by simpa using hc
      exact hrid ((h0.symm.trans h4.symm).trans hid)
    · have h4 : m0 = m := by
        have := hEq
        rwa [if_neg hc] at this
      rw [← h4]
      exact hP m0 hm0 (by rw [h4]; exact hid)
  · have hrid : r.id ≠ rid := by
      rcases hr with h | h
      · exact h
      · rw [he] at h
        exact absurd h (by decide)
    rcases List.mem_append.mp hm with h1 | h1
    · exact hP m h1 hid
    · exfalso
      rw [List.mem_singleton.mp h1] at hid
      exact hrid hid
  · obtain ⟨m0, hm0, hEq⟩ := List.mem_map.mp hm
    by_cases hc : (m0.id == r.id) = true
    · have h4 : markDel now m0 = m := by
        have := hEq
        rwa [if_pos hc] at this
      rw [← h4]
      exact ⟨rfl, rfl⟩
    · have h4 : m0 = m := by
        have := hEq
        rwa [if_neg hc] at this
      rw [← h4]
      exact hP m0 hm0 (by rw [h4]; exact hid)
  · exact hP m hm hid

/-- A DELETE event whose id exists in the ledger marks every row with that
id deleted and writes the active-to-deleted history row. -/
theorem processEvent_delete_establishes (u a now : Nat) (d : Db)
    (r : EngineEvent) (hdel : r.event = "DELETE")
    (hex : ∃ m ∈ d.memories, m.id = r.id) :
    (∀ m ∈ (processEvent u a now d r).memories, m.id = r.id →
      m.state = MemoryState.deleted ∧ m.deleted_at = some now) ∧
    (∃ x ∈ (processEvent u a now d r).history,
      x.memory_id = r.id ∧ x.old_state = some MemoryState.active ∧
      x.new_state = MemoryState.deleted) := by
  have hfound : ((d.memories.find? (fun m => m.id == r.id)).isSome) = true := by
    obtain ⟨m, hm, hi⟩ := hex
    cases hq : d.memories.find? (fun m => m.id == r.id) with
    | some _ => rfl
    | none =>
      exfalso
      have hq2 := List.find?_eq_none.mp hq m hm
      simp [hi] at hq2
  have heq : processEvent u a now d r =
      { d with
        memories := d.memories.map (fun m =>
          if m.id == r.id then markDel now m else m),
        history := d.history ++
          [⟨r.id, u, some MemoryState.active, MemoryState.deleted⟩] } := by
    simp only [processEvent]
    rw [if_neg (by rw [hdel]; decide), if_pos (by rw [hdel]; decide),
      if_pos hfound]
  rw [heq]
  constructor
  · intro m hm hid
    obtain ⟨m0, hm0, hEq⟩ := List.mem_map.mp hm
    by_cases hc : (m0.id == r.id) = true
    · have h4 : markDel now m0 = m := by
        have := hEq
        rwa [if_pos hc] at this
      rw [← h4]
      exact ⟨rfl, rfl⟩
    · exfalso
      have h4 : m0 = m := by
        have := hEq
        rwa [if_neg hc] at this
      rw [h4] at hc
      simp [hid] at hc
  · exact ⟨⟨r.id, u, some MemoryState.active, MemoryState.deleted⟩,
      List.mem_append_right _ (List.mem_singleton_self _), rfl, rfl, rfl⟩

/-- A DELETE event whose id has no ledger row leaves the ledger unchanged. -/
theorem processEvent_delete_missing_eq (u a now : Nat) (d : Db)
    (r : EngineEvent) (hdel : r.event = "DELETE")
    (hno : ∀ m ∈ d.memories, m.id ≠ r.id) :
    processEvent u a now d r = d := by
  have hfound : ((d.memories.find? (fun m => m.id == r.id)).isSome) = false := by
    cases hq : d.memories.find? (fun m => m.id == r.id) with
    | none => rfl
    | some m =>
      exfalso
      have hpm := List.find?_some hq
      have hmm := List.mem_of_find?_eq_some hq
      exact hno m hmm (by simpa using hpm)
  simp only [processEvent]
  rw [if_neg (by rw [hdel]; decide), if_pos (by rw [hdel]; decide),
    if_neg (by simp [hfound])]

/-- An event that can only be a DELETE for the watched id neither creates a
row with that id nor writes a history row for it. -/
theorem processEvent_skip (u a now : Nat) (d : Db) (r : EngineEvent)
    (rid : Nat) (hre : r.id = rid → r.event = "DELETE")
    (hna : ∀ m ∈ d.memories, m.id ≠ rid) :
    (∀ m ∈ (processEvent u a now d r).memories, m.id ≠ rid) ∧
    (∀ x ∈ (processEvent u a now d r).history,
      x ∈ d.history ∨ x.memory_id ≠ rid) := by
  by_cases hid : r.id = rid
  · have heqd := processEvent_delete_missing_eq u a now d r (hre hid)
      (fun m hm h => hna m hm (h.trans hid))
    rw [heqd]
    exact ⟨hna, fun x hx => Or.inl hx⟩
  · constructor
    · intro m hm
      rcases processEvent_cases u a now d r with
        ⟨_, heq⟩ | ⟨_, heq⟩ | ⟨_, heq⟩ | heq <;> rw [heq] at hm
      · obtain ⟨m0, hm0, hEq⟩ := List.mem_map.mp hm
        have h4 : m.id = m0.id := by
          rw [← hEq]
          exact ite_upd_id r.id (updAdd r.memory) (fun _ => rfl) m0
        rw [h4]
        exact hna m0 hm0
      · rcases List.mem_append.mp hm with h1 | h1
        · exact hna m h1
        · rw [List.mem_singleton.mp h1]
          exact hid
      · obtain ⟨m0, hm0, hEq⟩ := List.mem_map.mp hm
        have h4 : m.id = m0.id := by
          rw [← hEq]
          exact ite_upd_id r.id (markDel now) (fun _ => rfl) m0
        rw [h4]
        exact hna m0 hm0
      · exact hna m hm
    · intro x hx
      rcases processEvent_history_new u a now d r x hx with h | h
      · exact Or.inl h
      · exact Or.inr (by rw [h]; exact hid)

/-- The `foldl` version of `processEvent_accessLogs`. -/
theorem foldl_processEvent_accessLogs (u a now : Nat) :
    ∀ (rs : List EngineEvent) (d : Db),
      (rs.foldl (processEvent u a now) d).accessLogs = d.accessLogs := by
  intro rs
  induction rs with
  | nil => intro d; rfl
  | cons s l ih =>
    intro d
    rw [List.foldl_cons, ih, processEvent_accessLogs]

/-- The `foldl` version of `processEvent_history_mono`. -/
theorem foldl_processEvent_history_mono (u a now : Nat) :
    ∀ (rs : List EngineEvent) (d : Db) (x : HistoryRow), x ∈ d.history →
      x ∈ (rs.foldl (processEvent u a now) d).history := by
  intro rs
  induction rs with
  | nil => intro d x hx; exact hx
  | cons s l ih =>
    intro d x hx
    rw [List.foldl_cons]
    exact ih _ x (processEvent_history_mono u a now d s x hx)

/-- The `foldl` version of `processEvent_id_present`. -/
theorem foldl_processEvent_id_present (u a now : Nat) :
    ∀ (rs : List EngineEvent) (d : Db) (i : Nat),
      (∃ m ∈ d.memories, m.id = i) →
      ∃ m ∈ (rs.foldl (processEvent u a now) d).memories, m.id = i := by
  intro rs
  induction rs with
  | nil => intro d i h; exact h
  | cons s l ih =>
    intro d i h
    rw [List.foldl_cons]
    exact ih _ i (processEvent_id_present u a now d s i h)

/-- The `foldl` version of `processEvent_preserves_marked`. -/
theorem foldl_processEvent_preserves_marked (u a now rid : Nat) :
    ∀ (rs : List EngineEvent) (d : Db),
      (∀ s ∈ rs, s.id ≠ rid ∨ s.event = "DELETE") →
      (∀ m ∈ d.memories, m.id = rid →
        m.state = MemoryState.deleted ∧ m.deleted_at = some now) →
      ∀ m ∈ (rs.foldl (processEvent u a now) d).memories, m.id = rid →
        m.state = MemoryState.deleted ∧ m.deleted_at = some now := by
  intro rs
  induction rs with
  | nil => intro d _ hP; exact hP
  | cons s l ih =>
    intro d hrs hP
    rw [List.foldl_cons]
    exact ih _ (fun x hx => hrs x (List.mem_cons_of_mem s hx))
      (processEvent_preserves_marked u a now d s rid
        (hrs s (List.mem_cons_self s l)) hP)

/-- The `foldl` version of `processEvent_skip`. -/
theorem foldl_processEvent_skip (u a now rid : Nat) :
    ∀ (rs : List EngineEvent) (d : Db),
      (∀ s ∈ rs, s.id = rid → s.event = "DELETE") →
      (∀ m ∈ d.memories, m.id ≠ rid) →
      (∀ m ∈ (rs.foldl (processEvent u a now) d).memories, m.id ≠ rid) ∧
      (∀ x ∈ (rs.foldl (processEvent u a now) d).history,
        x ∈ d.history ∨ x.memory_id ≠ rid) := by
  intro rs
  induction rs with
  | nil => intro d _ hna; exact ⟨hna, fun x hx => Or.inl hx⟩
  | cons s l ih =>
    intro d hrs hna
    rw [List.foldl_cons]
    have hstep := processEvent_skip u a now d s rid
      (hrs s (List.mem_cons_self s l)) hna
    have hrec := ih (processEvent u a now d s)
      (fun x hx => hrs x (List.mem_cons_of_mem s hx)) hstep.1
    refine ⟨hrec.1, fun x hx => ?_⟩
    rcases hrec.2 x hx with h | h
    · rcases hstep.2 x h with h2 | h2
      · exact Or.inl h2
      · exact Or.inr h2
    · exact Or.inr h

/-- When the client is available, the app active, and the engine response a
dict with results, `add_memories` folds the event processor over the results
and returns the engine response unchanged. -/
theorem add_memories_active_run (client : MemoryClient) (db : Db) (now : Nat)
    (text : String) (uidQ cnQ : Option String) (results : List EngineEvent)
    (hactive : ((get_user_and_app db (uidQ.getD DEFAULT_USER_ID)
        (cnQ.getD DEFAULT_CLIENT_NAME)).2.1).is_active = true)
    (hresp : client.addResult text (uidQ.getD DEFAULT_USER_ID) = some results) :
    add_memories (some client) db now text uidQ cnQ =
      (Resp.ok (some results),
        results.foldl (processEvent
            (get_user_and_app db (uidQ.getD DEFAULT_USER_ID)
              (cnQ.getD DEFAULT_CLIENT_NAME)).1.id
            (get_user_and_app db (uidQ.getD DEFAULT_USER_ID)
              (cnQ.getD DEFAULT_CLIENT_NAME)).2.1.id now)
          (get_user_and_app db (uidQ.getD DEFAULT_USER_ID)
            (cnQ.getD DEFAULT_CLIENT_NAME)).2.2,
        [EngineCall.addCall text (uidQ.getD DEFAULT_USER_ID)]) := by
  simp only [add_memories, hactive, hresp, Bool.not_true, Bool.false_eq_true,
    if_false]

/-- C4: for a DELETE event whose id exists in the ledger (and is not
re-added by another event of the same response), after `add_memories` the
row is in state deleted with the timestamp set, and an active-to-deleted
history row for that id exists. -/
theorem add_delete_event_marks_row_deleted (client : MemoryClient) (db : Db)
    (now : Nat) (text : String) (uidQ cnQ : Option String)
    (results : List EngineEvent) (rv : EngineEvent)
    (hactive : ((get_user_and_app db (uidQ.getD DEFAULT_USER_ID)
        (cnQ.getD DEFAULT_CLIENT_NAME)).2.1).is_active = true)
    (hresp : client.addResult text (uidQ.getD DEFAULT_USER_ID) = some results)
    (hmem : rv ∈ results) (hdel : rv.event = "DELETE")
    (honly : ∀ s ∈ results, s.id = rv.id → s.event = "DELETE")
    (hex : ∃ m ∈ db.memories, m.id = rv.id) :
    (∀ m ∈ ((add_memories (some client) db now text uidQ cnQ).2.1).memories,
        m.id = rv.id → m.state = MemoryState.deleted ∧
          m.deleted_at = some now) ∧
    (∃ x ∈ ((add_memories (some client) db now text uidQ cnQ).2.1).history,
        x.memory_id = rv.id ∧ x.old_state = some MemoryState.active ∧
        x.new_state = MemoryState.deleted) := by
  have hrun := add_memories_active_run client db now text uidQ cnQ results
    hactive hresp
  set G := get_user_and_app db (uidQ.getD DEFAULT_USER_ID)
    (cnQ.getD DEFAULT_CLIENT_NAME) with hG
  have key : ((add_memories (some client) db now text uidQ cnQ).2.1) =
      results.foldl (processEvent G.1.id G.2.1.id now) G.2.2 := by
    rw [hrun]
  obtain ⟨s1, s2, hsplit⟩ := List.append_of_mem hmem
  rw [key, hsplit, List.foldl_append, List.foldl_cons]
  have hex1 : ∃ m ∈ (s1.foldl (processEvent G.1.id G.2.1.id now) G.2.2).memories,
      m.id = rv.id :=
    foldl_processEvent_id_present G.1.id G.2.1.id now s1 G.2.2 rv.id hex
  have hest := processEvent_delete_establishes G.1.id G.2.1.id now
    (s1.foldl (processEvent G.1.id G.2.1.id now) G.2.2) rv hdel hex1
  constructor
  · exact foldl_processEvent_preserves_marked G.1.id G.2.1.id now rv.id s2 _
      (fun s hs => by
        by_cases h : s.id = rv.id
        · exact Or.inr (honly s (by
            rw [hsplit]
            exact List.mem_append_right _ (List.mem_cons_of_mem _ hs)) h)
        · exact Or.inl h)
      hest.1
  · obtain ⟨x, hxmem, hxprop⟩ := hest.2
    exact ⟨x, foldl_processEvent_history_mono G.1.id G.2.1.id now s2 _ x hxmem,
      hxprop⟩

/-- Closed instance of `add_delete_event_marks_row_deleted`. -/
theorem add_delete_event_marks_row_deleted_witness :
    (∀ m ∈ ((add_memories (some wClient4) wDb 42 "bye" none none).2.1).memories,
        m.id = 3 → m.state = MemoryState.deleted ∧ m.deleted_at = some 42) ∧
    (∃ x ∈ ((add_memories (some wClient4) wDb 42 "bye" none none).2.1).history,
        x.memory_id = 3 ∧ x.old_state = some MemoryState.active ∧
        x.new_state = MemoryState.deleted) :=
  add_delete_event_marks_row_deleted wClient4 wDb 42 "bye" none none
    [⟨3, "DELETE", ""⟩] ⟨3, "DELETE", ""⟩ (by decide) rfl (by decide) rfl
    (by decide) (by decide)

/-- C10: a DELETE event whose id has no ledger row (and no other event of
the response concerns that id) is silently skipped: the call still returns
the engine response unchanged, no memory row with that id exists
afterwards, no history row for that id is added, and the access-log table
is untouched. -/
theorem add_delete_missing_row_skipped (client : MemoryClient) (db : Db)
    (now : Nat) (text : String) (uidQ cnQ : Option String)
    (results : List EngineEvent) (rv : EngineEvent)
    (hactive : ((get_user_and_app db (uidQ.getD DEFAULT_USER_ID)
        (cnQ.getD DEFAULT_CLIENT_NAME)).2.1).is_active = true)
    (hresp : client.addResult text (uidQ.getD DEFAULT_USER_ID) = some results)
    (hmem : rv ∈ results) (hdel : rv.event = "DELETE")
    (honly : ∀ s ∈ results, s.id = rv.id → s.event = "DELETE")
    (hnone : ∀ m ∈ db.memories, m.id ≠ rv.id) :
    (add_memories (some client) db now text uidQ cnQ).1 =
      Resp.ok (some results) ∧
    (∀ m ∈ ((add_memories (some client) db now text uidQ cnQ).2.1).memories,
        m.id ≠ rv.id) ∧
    (∀ x ∈ ((add_memories (some client) db now text uidQ cnQ).2.1).history,
        x.memory_id = rv.id → x ∈ db.history) ∧
    ((add_memories (some client) db now text uidQ cnQ).2.1).accessLogs =
      db.accessLogs := by
  have hrun := add_memories_active_run client db now text uidQ cnQ results
    hactive hresp
  have key1 : (add_memories (some client) db now text uidQ cnQ).1 =
      Resp.ok (some results) := by rw [hrun]
  have key : ((add_memories (some client) db now text uidQ cnQ).2.1) =
      results.foldl (processEvent
          (get_user_and_app db (uidQ.getD DEFAULT_USER_ID)
            (cnQ.getD DEFAULT_CLIENT_NAME)).1.id
          (get_user_and_app db (uidQ.getD DEFAULT_USER_ID)
            (cnQ.getD DEFAULT_CLIENT_NAME)).2.1.id now)
        (get_user_and_app db (uidQ.getD DEFAULT_USER_ID)
          (cnQ.getD DEFAULT_CLIENT_NAME)).2.2 := by
    rw [hrun]
  have hskip := foldl_processEvent_skip
    (get_user_and_app db (uidQ.getD DEFAULT_USER_ID)
      (cnQ.getD DEFAULT_CLIENT_NAME)).1.id
    (get_user_and_app db (uidQ.getD DEFAULT_USER_ID)
      (cnQ.getD DEFAULT_CLIENT_NAME)).2.1.id now rv.id results
    (get_user_and_app db (uidQ.getD DEFAULT_USER_ID)
      (cnQ.getD DEFAULT_CLIENT_NAME)).2.2 honly hnone
  refine ⟨key1, ?_, ?_, ?_⟩
  · rw [key]
    exact hskip.1
  · rw [key]
    intro x hx hxid
    rcases hskip.2 x hx with h | h
    · exact h
    · exact absurd hxid h
  · rw [key, foldl_processEvent_accessLogs]
    rfl

/-- Closed instance of `add_delete_missing_row_skipped`. -/
theorem add_delete_missing_row_skipped_witness :
    (add_memories (some wClient10) wDb 42 "bye" none none).1 =
      Resp.ok (some [⟨8, "DELETE", ""⟩]) ∧
    (∀ m ∈ ((add_memories (some wClient10) wDb 42 "bye" none none).2.1).memories,
        m.id ≠ 8) ∧
    (∀ x ∈ ((add_memories (some wClient10) wDb 42 "bye" none none).2.1).history,
        x.memory_id = 8 → x ∈ wDb.history) ∧
    ((add_memories (some wClient10) wDb 42 "bye" none none).2.1).accessLogs =
      wDb.accessLogs :=
  add_delete_missing_row_skipped wClient10 wDb 42 "bye" none none
    [⟨8, "DELETE", ""⟩] ⟨8, "DELETE", ""⟩ (by decide) rfl (by decide) rfl
    (by decide) (by decide)

/-- Closed instance of `add_paused_app_rejects_without_mutation`. -/
theorem add_paused_app_rejects_without_mutation_witness :
    ((get_user_and_app pausedDb ((none : Option String).getD DEFAULT_USER_ID)
        ((none : Option String).getD DEFAULT_CLIENT_NAME)).2.1).is_active =
      false ∧
    ((add_memories (some cexClient) pausedDb 0 "hi" none none).1 =
      .error ("App " ++ ((get_user_and_app pausedDb
          ((none : Option String).getD DEFAULT_USER_ID)
          ((none : Option String).getD DEFAULT_CLIENT_NAME)).2.1).name ++
        " is currently paused on OpenMemory. Cannot create new memories.") ∧
    ((add_memories (some cexClient) pausedDb 0 "hi" none none).2.1).memories =
      pausedDb.memories ∧
    ((add_memories (some cexClient) pausedDb 0 "hi" none none).2.1).history =
      pausedDb.history ∧
    ((add_memories (some cexClient) pausedDb 0 "hi" none none).2.1).accessLogs =
      pausedDb.accessLogs ∧
    (add_memories (some cexClient) pausedDb 0 "hi" none none).2.2 = []) :=
  ⟨by decide,
    add_paused_app_rejects_without_mutation cexClient pausedDb 0 "hi"
      none none (by decide)⟩

end OpenMemory
